import Mathlib

/-!
Shallow embedding of the pawn-race board logic (`src/logic/src/board.rs`).

The board is a 128-bit packed field (2 bits per square) together with an
optional en-passant target.  Files and ranks store the raw `i32` payload of
the Rust tuple structs as `Int`; `File::new`/`Rank::new` use Rust's
`wrapping_rem` (truncated remainder, `Int.tmod`).  The `u128` field is
modelled as a `Nat`; every mask operation of the source keeps the value
below `2 ^ 128`, and theorems that need the machine-width invariant carry
it as a hypothesis.  `u128::reverse_bits` is modelled by `revBits 128`,
which reverses the low 128 bits.

The Rust `Board::at` shifts by `bits_at(pos)`, an `i32` that is negative
for positions built from non-positive coordinates (where the Rust shift
would overflow); the embedding exposes `Board.bits_at : Int` faithfully
and clamps with `Int.toNat` only inside `atPos`, so all square-content
theorems are stated for in-range positions.
-/

set_option maxHeartbeats 1000000

namespace PawnRace

inductive Colour where
  | White
  | Black
deriving DecidableEq, Repr

inductive Square where
  | piece (c : Colour)
  | empty
deriving DecidableEq, Repr

def Square.decode (v : Nat) : Square :=
  if v = 1 then .piece .White
  else if v = 2 then .piece .Black
  else .empty

def Square.encode : Square → Nat
  | .piece .White => 1
  | .piece .Black => 2
  | .empty => 0

def Square.flip : Square → Square
  | .piece .White => .piece .Black
  | .piece .Black => .piece .White
  | .empty => .empty

def Square.is_white : Square → Bool
  | .piece .White => true
  | _ => false

def Square.is_black : Square → Bool
  | .piece .Black => true
  | _ => false

def Square.is_empty : Square → Bool
  | .empty => true
  | _ => false

structure File where
  val : Int
deriving DecidableEq, Repr

def File.new (v : Int) : File := ⟨(v - 1).tmod 8⟩

def File.n (f : File) : Int := f.val + 1

def File.flip (f : File) : File := ⟨7 - f.val⟩

def File.is_start (f : File) : Bool := f.val == 0

def File.is_end (f : File) : Bool := f.val == 7

def File.incr (f : File) : File := File.new (f.n + 1)

def File.decr (f : File) : File := File.new (f.n - 1)

structure Rank where
  val : Int
deriving DecidableEq, Repr

def Rank.new (v : Int) : Rank := ⟨(v - 1).tmod 8⟩

def Rank.n (r : Rank) : Int := r.val + 1

def Rank.flip (r : Rank) : Rank := ⟨7 - r.val⟩

def Rank.is_start (r : Rank) : Bool := r.val == 0

def Rank.is_end (r : Rank) : Bool := r.val == 7

def Rank.incr (r : Rank) : Rank := Rank.new (r.n + 1)

def Rank.decr (r : Rank) : Rank := Rank.new (r.n - 1)

structure Position where
  file : File
  rank : Rank
deriving DecidableEq, Repr

def Position.flip (p : Position) : Position := ⟨p.file.flip, p.rank.flip⟩

/-- `From<(i32, i32)> for Position`. -/
def Position.ofInts (x y : Int) : Position := ⟨File.new x, Rank.new y⟩

/-- Scan step, left-to-right then bottom-to-top (`Position::incr`). -/
def Position.incr (p : Position) : Position :=
  ⟨p.file.incr, if p.file.is_end then p.rank.incr else p.rank⟩

def Position.left (p : Position) : Option Position :=
  if p.file.is_start then none else some ⟨p.file.decr, p.rank⟩

def Position.right (p : Position) : Option Position :=
  if p.file.is_end then none else some ⟨p.file.incr, p.rank⟩

def Position.front (p : Position) : Option Position :=
  if p.rank.is_end then none else some ⟨p.file, p.rank.incr⟩

def Position.diag_l (p : Position) : Option Position :=
  p.front.bind Position.left

def Position.diag_r (p : Position) : Option Position :=
  p.front.bind Position.right

def Position.is_start (p : Position) : Bool := p.file.is_start && p.rank.is_start

def Position.is_end (p : Position) : Bool := p.file.is_end && p.rank.is_end

/-- In-range coordinates: both components within the 8×8 board. -/
def Position.valid (p : Position) : Prop :=
  0 ≤ p.file.val ∧ p.file.val ≤ 7 ∧ 0 ≤ p.rank.val ∧ p.rank.val ≤ 7

instance (p : Position) : Decidable p.valid := by
  unfold Position.valid; infer_instance

/-- Reverse of the low `n` bits (`u128::reverse_bits` is `revBits 128`). -/
def revBits : Nat → Nat → Nat
  | 0, _ => 0
  | n + 1, x => x % 2 * 2 ^ n + revBits n (x / 2)

def reverseBits128 (x : Nat) : Nat := revBits 128 x

structure Board where
  raw : Nat
  passantable_pos : Option Position
deriving DecidableEq, Repr

/-- `Board::new`: white pawns on rank 2, black pawns on rank 7. -/
def Board.new : Board :=
  ⟨0x0000AAAA000000000000000055550000, none⟩

/-- `Board::bits_at`, the `i32` bit offset `2 * (8 * rank + file)`. -/
def Board.bits_at (p : Position) : Int :=
  2 * (8 * p.rank.val + p.file.val)

/-- The nonnegative bit offset actually used when indexing the packed word. -/
def Board.bitIdx (p : Position) : Nat := (Board.bits_at p).toNat

/-- `Board::at`: decode the two bits at `pos`. -/
def Board.atPos (b : Board) (p : Position) : Square :=
  Square.decode ((b.raw &&& (3 <<< Board.bitIdx p)) >>> Board.bitIdx p)

/-- `Board::set`: clear the two bits at `pos`, then or-in the encoded square. -/
def Board.set (b : Board) (p : Position) (s : Square) : Board :=
  { b with
    raw := b.raw &&& ((3 <<< Board.bitIdx p) ^^^ (2 ^ 128 - 1))
      ||| s.encode <<< Board.bitIdx p }

/-- `Board::flip`: bit-reverse the packed field and flip the passant target. -/
def Board.flip (b : Board) : Board :=
  ⟨reverseBits128 b.raw, b.passantable_pos.map Position.flip⟩

/-- A generated move: destination (`to` in the Rust source; `to` is a Lean
keyword), en-passant flag, and the piece's position and board snapshot
(the Rust `Move` holds the latter two through `Rc<Piece>`). -/
structure Move where
  dst : Position
  passant : Bool
  src : Position
  board : Board
deriving DecidableEq, Repr

/-- `Board::after`: the Rust unwraps `m.piece.board.passantable_pos` inside the
en-passant branch; that fallible step is modelled by `Option`. -/
def Board.after (b : Board) (m : Move) : Option Board :=
  let b1 := Board.set b m.src Square.empty
  let b2 := Board.set b1 m.dst (Square.piece Colour.White)
  let ob3 : Option Board :=
    if m.passant then
      match m.board.passantable_pos with
      | some x => some (Board.set b2 x Square.empty)
      | none => none
    else
      some b2
  ob3.map fun b3 =>
    if m.dst.rank.n - m.src.rank.n = 2 then
      { b3 with passantable_pos := some m.dst }
    else
      b3

/-! ## Move enumeration (`MovesIterator`) -/

/-- Stage 1, single forward: front square exists and is empty. -/
def stageFwd1 (b : Board) (p : Position) : Option Move :=
  match p.front with
  | some q => if (b.atPos q).is_empty then some ⟨q, false, p, b⟩ else none
  | none => none

/-- Stage 2, double forward: the square two ahead exists and is empty. -/
def stageFwd2 (b : Board) (p : Position) : Option Move :=
  match p.front.bind Position.front with
  | some q => if (b.atPos q).is_empty then some ⟨q, false, p, b⟩ else none
  | none => none

/-- Stage 3, diagonal-left capture: a black pawn sits on `diag_l`. -/
def stageDiagL (b : Board) (p : Position) : Option Move :=
  match p.diag_l with
  | some q => if (b.atPos q).is_black then some ⟨q, false, p, b⟩ else none
  | none => none

/-- Stage 4, diagonal-right capture: a black pawn sits on `diag_r`. -/
def stageDiagR (b : Board) (p : Position) : Option Move :=
  match p.diag_r with
  | some q => if (b.atPos q).is_black then some ⟨q, false, p, b⟩ else none
  | none => none

/-- Stage 5, en passant left: `left` equals the board's passant target and
`diag_l` exists and is empty. -/
def stagePasL (b : Board) (p : Position) : Option Move :=
  if p.left = b.passantable_pos then
    match p.diag_l with
    | some q => if (b.atPos q).is_empty then some ⟨q, true, p, b⟩ else none
    | none => none
  else none

/-- Stage 6, en passant right: symmetric with `right`/`diag_r`. -/
def stagePasR (b : Board) (p : Position) : Option Move :=
  if p.right = b.passantable_pos then
    match p.diag_r with
    | some q => if (b.atPos q).is_empty then some ⟨q, true, p, b⟩ else none
    | none => none
  else none

/-- The `MovesIterator` state: the piece (position + board snapshot) and the
six "have checked?" flags. -/
structure MIter where
  src : Position
  board : Board
  fwd1 : Bool
  fwd2 : Bool
  diagL : Bool
  diagR : Bool
  pasL : Bool
  pasR : Bool
deriving DecidableEq, Repr

/-- `MovesIterator::new`: `fwd_2` is pre-disabled off the starting rank and
both passant flags are pre-disabled when there is no passant target. -/
def mkIter (b : Board) (p : Position) : MIter :=
  let passant_check := b.passantable_pos.isNone
  ⟨p, b, false, decide (p.rank.n ≠ 2), false, false, passant_check, passant_check⟩

def next6 (it : MIter) : Option Move × MIter :=
  if it.pasR then (none, it)
  else (stagePasR it.board it.src, { it with pasR := true })

def next5 (it : MIter) : Option Move × MIter :=
  if it.pasL then next6 it
  else
    match stagePasL it.board it.src with
    | some m => (some m, { it with pasL := true })
    | none => next6 { it with pasL := true }

def next4 (it : MIter) : Option Move × MIter :=
  if it.diagR then next5 it
  else
    match stageDiagR it.board it.src with
    | some m => (some m, { it with diagR := true })
    | none => next5 { it with diagR := true }

def next3 (it : MIter) : Option Move × MIter :=
  if it.diagL then next4 it
  else
    match stageDiagL it.board it.src with
    | some m => (some m, { it with diagL := true })
    | none => next4 { it with diagL := true }

def next2 (it : MIter) : Option Move × MIter :=
  if it.fwd2 then next3 it
  else
    match stageFwd2 it.board it.src with
    | some m => (some m, { it with fwd2 := true })
    | none => next3 { it with fwd2 := true }

/-- One `MovesIterator::next` call: the six early-return stages in order;
when stage 1 finds the front square missing or occupied it also forcibly
disables the double-forward stage. -/
def next1 (it : MIter) : Option Move × MIter :=
  if it.fwd1 then next2 it
  else
    match stageFwd1 it.board it.src with
    | some m => (some m, { it with fwd1 := true })
    | none => next2 { it with fwd1 := true, fwd2 := true }

/-- Pull the iterator until it yields `none` (fuel-bounded; 7 pulls suffice
since every pull either emits one of the six stages or finishes). -/
def collectM : Nat → MIter → List Move
  | 0, _ => []
  | n + 1, it =>
    match next1 it with
    | (some m, it') => m :: collectM n it'
    | (none, _) => []

/-- `Piece::moves` collected into a list. -/
def movesOf (b : Board) (p : Position) : List Move :=
  collectM 7 (mkIter b p)

/-! ## Piece enumeration (`PieceIterator`) -/

/-- The square-scan order underlying `PieceIterator`: repeatedly `incr`,
stopping after the first square whose `is_end` holds. -/
def scanF : Nat → Position → List Position
  | 0, _ => []
  | n + 1, look =>
    let q := look.incr
    q :: (if q.is_end then [] else scanF n q)

/-- `PieceIterator` flattened: scan from `look`, yielding white squares,
stopping after the `is_end` square. -/
def piecesAux (b : Board) : Nat → Position → List Position
  | 0, _ => []
  | n + 1, look =>
    let q := look.incr
    let rest := if q.is_end then [] else piecesAux b n q
    if (b.atPos q).is_white then q :: rest else rest

/-- The iterator starts looking from `(8, 8)` (so the first scanned square is
A1) and the scan covers all 64 squares. -/
def startLook : Position := Position.ofInts 8 8

/-- `Board::pieces` collected into a list. -/
def piecesL (b : Board) : List Position := piecesAux b 64 startLook

/-- `Board::moves` collected into a list. -/
def movesL (b : Board) : List Move := (piecesL b).flatMap fun p => movesOf b p

/-- All 64 board squares in scan order (A1, B1, …, H8). -/
def allPositions : List Position := scanF 64 startLook

/-! ## Bit-reversal lemmas -/

theorem revBits_lt (n : Nat) : ∀ x, revBits n x < 2 ^ n := by
  induction n with
  | zero => intro x; simp [revBits]
  | succ n ih =>
    intro x
    have h1 : x % 2 ≤ 1 := Nat.le_of_lt_succ (Nat.mod_lt _ (by norm_num))
    have h2 : x % 2 * 2 ^ n ≤ 2 ^ n := by
      calc x % 2 * 2 ^ n ≤ 1 * 2 ^ n := Nat.mul_le_mul_right _ h1
        _ = 2 ^ n := Nat.one_mul _
    have h3 := ih (x / 2)
    simp only [revBits, pow_succ]
    omega

theorem testBit_revBits : ∀ n x i, i < n → (revBits n x).testBit i = x.testBit (n - 1 - i) := by
  intro n
  induction n with
  | zero => intro x i hi; omega
  | succ n ih =>
    intro x i hi
    simp only [revBits]
    rcases Nat.lt_succ_iff_lt_or_eq.mp hi with hi' | heq
    · have hpow : (2:Nat) ^ i * 2 ^ (n - i) = 2 ^ n := by
        rw [← pow_add]
        congr 1
        omega
      have hsplit : x % 2 * 2 ^ n = 2 ^ i * (x % 2 * 2 ^ (n - i)) := by
        rw [← hpow]
        ring
      rw [hsplit, Nat.testBit_to_div_mod,
        Nat.mul_add_div (Nat.pos_pow_of_pos i (by norm_num))]
      have hev : x % 2 * 2 ^ (n - i) % 2 = 0 := by
        have hni : n - i = (n - i - 1) + 1 := by omega
        rw [hni, pow_succ, ← Nat.mul_assoc]
        exact Nat.mul_mod_left _ 2
      have hmod : (x % 2 * 2 ^ (n - i) + revBits n (x / 2) / 2 ^ i) % 2
          = revBits n (x / 2) / 2 ^ i % 2 := by omega
      rw [hmod, ← Nat.testBit_to_div_mod, ih (x / 2) i hi', Nat.testBit_div_two]
      congr 1
      omega
    · subst heq
      have hlt := revBits_lt i (x / 2)
      rw [Nat.testBit_to_div_mod]
      have hdiv : (x % 2 * 2 ^ i + revBits i (x / 2)) / 2 ^ i = x % 2 := by
        rw [Nat.mul_comm (x % 2) (2 ^ i),
          Nat.mul_add_div (Nat.pos_pow_of_pos i (by norm_num)),
          Nat.div_eq_of_lt hlt]
        omega
      rw [hdiv]
      have hz : i + 1 - 1 - i = 0 := by omega
      rw [hz, Nat.testBit_zero]
      exact decide_eq_decide.mpr (by omega)

theorem testBit_reverseBits128 (x i : Nat) (hi : i < 128) :
    (reverseBits128 x).testBit i = x.testBit (127 - i) :=
  testBit_revBits 128 x i hi

theorem reverseBits128_lt (x : Nat) : reverseBits128 x < 2 ^ 128 :=
  revBits_lt 128 x

theorem reverseBits128_involutive {x : Nat} (hx : x < 2 ^ 128) :
    reverseBits128 (reverseBits128 x) = x := by
  apply Nat.eq_of_testBit_eq
  intro i
  rcases Nat.lt_or_ge i 128 with hi | hi
  · rw [testBit_reverseBits128 _ _ hi, testBit_reverseBits128 _ _ (by omega)]
    congr 1
    omega
  · have h1 : (2:Nat) ^ 128 ≤ 2 ^ i := Nat.pow_le_pow_right (by norm_num) hi
    rw [Nat.testBit_lt_two_pow (Nat.lt_of_lt_of_le (reverseBits128_lt _) h1),
      Nat.testBit_lt_two_pow (Nat.lt_of_lt_of_le hx h1)]

/-! ## Square-content lemmas for `atPos`/`set` -/

theorem Square.encode_lt (s : Square) : s.encode < 4 := by
  cases s with
  | piece c => cases c <;> simp [Square.encode]
  | empty => simp [Square.encode]

theorem Square.decode_encode (s : Square) : Square.decode s.encode = s := by
  cases s with
  | piece c => cases c <;> rfl
  | empty => rfl

theorem testBit_three (j : Nat) : (3 : Nat).testBit j = decide (j < 2) := by
  have h := Nat.testBit_two_pow_sub_one 2 j
  norm_num at h
  exact h

theorem testBit_div_pow_mod4 (x k j : Nat) :
    (x / 2 ^ k % 4).testBit j = (decide (j < 2) && x.testBit (k + j)) := by
  have h4 : (4 : Nat) = 2 ^ 2 := by norm_num
  rw [← Nat.shiftRight_eq_div_pow, h4, Nat.testBit_mod_two_pow, Nat.testBit_shiftRight]

/-- `Board::at` reads the two bits at the position's offset. -/
theorem atPos_eq (b : Board) (p : Position) :
    b.atPos p = Square.decode (b.raw / 2 ^ Board.bitIdx p % 4) := by
  unfold Board.atPos
  congr 1
  apply Nat.eq_of_testBit_eq
  intro j
  rw [Nat.testBit_shiftRight, Nat.testBit_and, Nat.testBit_shiftLeft,
    testBit_div_pow_mod4, testBit_three]
  by_cases hj : j < 2
  · rw [decide_eq_true hj, decide_eq_true (show Board.bitIdx p ≤ Board.bitIdx p + j by omega)]
    have : Board.bitIdx p + j - Board.bitIdx p = j := by omega
    rw [this, decide_eq_true hj]
    exact Bool.and_comm _ _
  · rw [decide_eq_false hj]
    have : Board.bitIdx p + j - Board.bitIdx p = j := by omega
    rw [this, decide_eq_false hj]
    simp

/-- Two numbers with equal low two bits are equal mod 4. -/
theorem mod4_of_testBit {x y : Nat} (h0 : x.testBit 0 = y.testBit 0)
    (h1 : x.testBit 1 = y.testBit 1) : x % 4 = y % 4 := by
  rw [Nat.testBit_to_div_mod, Nat.testBit_to_div_mod] at h0 h1
  norm_num at h0 h1
  omega

/-- The clear-mask of `Board::set` kills exactly the two target bits. -/
theorem mask_testBit (k i : Nat) (hi : i < 128) :
    ((3 <<< k) ^^^ (2 ^ 128 - 1)).testBit i
      = !(decide (i = k) || decide (i = k + 1)) := by
  rw [Nat.testBit_xor, Nat.testBit_shiftLeft, Nat.testBit_two_pow_sub_one,
    testBit_three, decide_eq_true hi, Bool.xor_true]
  have key : (decide (k ≤ i) && decide (i - k < 2))
      = (decide (i = k) || decide (i = k + 1)) := by
    rw [Bool.eq_iff_iff]
    simp only [Bool.and_eq_true, Bool.or_eq_true, decide_eq_true_eq]
    omega
  rw [key]

/-- Bit `i` of the raw field after `Board::set`. -/
theorem set_raw_testBit (b : Board) (p : Position) (s : Square) (i : Nat)
    (hi : i < 128) :
    ((b.set p s).raw).testBit i
      = if i = Board.bitIdx p then s.encode.testBit 0
        else if i = Board.bitIdx p + 1 then s.encode.testBit 1
        else b.raw.testBit i := by
  set k := Board.bitIdx p with hk
  show (b.raw &&& ((3 <<< k) ^^^ (2 ^ 128 - 1)) ||| s.encode <<< k).testBit i = _
  rw [Nat.testBit_or, Nat.testBit_and, mask_testBit k i hi, Nat.testBit_shiftLeft]
  by_cases h1 : i = k
  · subst h1
    have e1 : (decide (k = k) || decide (k = k + 1)) = true := by simp
    have e2 : decide (k ≤ k) = true := by simp
    rw [e1, e2, Nat.sub_self, if_pos rfl]
    simp
  · by_cases h2 : i = k + 1
    · subst h2
      have e1 : (decide (k + 1 = k) || decide (k + 1 = k + 1)) = true := by simp
      have e2 : decide (k ≤ k + 1) = true := by simp
      have e3 : k + 1 - k = 1 := by omega
      rw [e1, e2, e3, if_neg h1, if_pos rfl]
      simp
    · rw [if_neg h1, if_neg h2]
      have e1 : (decide (i = k) || decide (i = k + 1)) = false := by simp [h1, h2]
      rw [e1]
      by_cases h3 : k ≤ i
      · have hik : 2 ≤ i - k := by omega
        have henc : s.encode.testBit (i - k) = false := by
          apply Nat.testBit_lt_two_pow
          calc s.encode < 4 := s.encode_lt
            _ = 2 ^ 2 := by norm_num
            _ ≤ 2 ^ (i - k) := Nat.pow_le_pow_right (by norm_num) hik
        rw [henc]
        simp
      · rw [decide_eq_false h3]
        simp

theorem Position.eq_iff_vals (p q : Position) :
    p = q ↔ p.file.val = q.file.val ∧ p.rank.val = q.rank.val := by
  cases p with
  | mk pf pr =>
    cases q with
    | mk qf qr =>
      cases pf
      cases pr
      cases qf
      cases qr
      simp [Position.mk.injEq, File.mk.injEq, Rank.mk.injEq]

theorem bitIdx_val {p : Position} (hp : p.valid) :
    (Board.bitIdx p : Int) = 2 * (8 * p.rank.val + p.file.val) := by
  obtain ⟨h1, h2, h3, h4⟩ := hp
  unfold Board.bitIdx Board.bits_at
  rw [Int.toNat_of_nonneg (by omega)]

theorem bitIdx_lt {p : Position} (hp : p.valid) : Board.bitIdx p + 1 < 128 := by
  have h := bitIdx_val hp
  obtain ⟨h1, h2, h3, h4⟩ := hp
  omega

/-- Distinct in-range positions occupy disjoint 2-bit fields. -/
theorem bitIdx_sep {p q : Position} (hp : p.valid) (hq : q.valid) (hne : p ≠ q) :
    Board.bitIdx q ≠ Board.bitIdx p ∧ Board.bitIdx q ≠ Board.bitIdx p + 1
      ∧ Board.bitIdx q + 1 ≠ Board.bitIdx p
      ∧ Board.bitIdx q + 1 ≠ Board.bitIdx p + 1 := by
  have hpv := bitIdx_val hp
  have hqv := bitIdx_val hq
  have hvals : ¬(p.file.val = q.file.val ∧ p.rank.val = q.rank.val) := by
    intro h
    exact hne ((Position.eq_iff_vals p q).mpr h)
  obtain ⟨hp1, hp2, hp3, hp4⟩ := hp
  obtain ⟨hq1, hq2, hq3, hq4⟩ := hq
  omega

theorem testBit_div_pow (x k j : Nat) :
    (x / 2 ^ k).testBit j = x.testBit (k + j) := by
  rw [← Nat.shiftRight_eq_div_pow, Nat.testBit_shiftRight]

/-- Setting a square then reading it back gives the stored square. -/
theorem atPos_set_self (b : Board) {p : Position} (s : Square) (hp : p.valid) :
    (b.set p s).atPos p = s := by
  have hk := bitIdx_lt hp
  rw [atPos_eq]
  have hb0 : ((b.set p s).raw / 2 ^ Board.bitIdx p).testBit 0 = s.encode.testBit 0 := by
    rw [testBit_div_pow, Nat.add_zero, set_raw_testBit _ _ _ _ (by omega), if_pos rfl]
  have hb1 : ((b.set p s).raw / 2 ^ Board.bitIdx p).testBit 1 = s.encode.testBit 1 := by
    rw [testBit_div_pow, set_raw_testBit _ _ _ _ (by omega),
      if_neg (by omega), if_pos rfl]
  rw [mod4_of_testBit hb0 hb1, Nat.mod_eq_of_lt s.encode_lt, Square.decode_encode]

/-- Bit isolation: setting one square leaves every other square unchanged. -/
theorem atPos_set_other (b : Board) {p q : Position} (s : Square) (hp : p.valid)
    (hq : q.valid) (hne : p ≠ q) : (b.set p s).atPos q = b.atPos q := by
  have hkp := bitIdx_lt hp
  have hkq := bitIdx_lt hq
  obtain ⟨hs1, hs2, hs3, hs4⟩ := bitIdx_sep hp hq hne
  rw [atPos_eq, atPos_eq]
  have hb0 : ((b.set p s).raw / 2 ^ Board.bitIdx q).testBit 0
      = (b.raw / 2 ^ Board.bitIdx q).testBit 0 := by
    rw [testBit_div_pow, testBit_div_pow, Nat.add_zero,
      set_raw_testBit _ _ _ _ (by omega), if_neg hs1, if_neg hs2]
  have hb1 : ((b.set p s).raw / 2 ^ Board.bitIdx q).testBit 1
      = (b.raw / 2 ^ Board.bitIdx q).testBit 1 := by
    rw [testBit_div_pow, testBit_div_pow,
      set_raw_testBit _ _ _ _ (by omega), if_neg hs3, if_neg hs4]
  rw [mod4_of_testBit hb0 hb1]

/-! ## Flip lemmas -/

theorem Position.flip_flip (p : Position) : p.flip.flip = p := by
  cases p with
  | mk f r =>
    cases f
    cases r
    simp only [Position.flip, File.flip, Rank.flip, Position.mk.injEq,
      File.mk.injEq, Rank.mk.injEq]
    omega

theorem Position.valid_flip {p : Position} (hp : p.valid) : p.flip.valid := by
  obtain ⟨h1, h2, h3, h4⟩ := hp
  exact ⟨by simp [Position.flip, File.flip]; omega, by simp [Position.flip, File.flip]; omega,
    by simp [Position.flip, Rank.flip]; omega, by simp [Position.flip, Rank.flip]; omega⟩

theorem decode_swap :
    ∀ v < 4, ∀ w < 4, w.testBit 0 = v.testBit 1 → w.testBit 1 = v.testBit 0 →
      Square.decode w = (Square.decode v).flip := by
  decide

theorem bitIdx_flip {p : Position} (hp : p.valid) :
    Board.bitIdx p.flip = 126 - Board.bitIdx p := by
  have h1 := bitIdx_val hp
  have h2 := bitIdx_val (Position.valid_flip hp)
  have h3 : p.flip.file.val = 7 - p.file.val := rfl
  have h4 : p.flip.rank.val = 7 - p.rank.val := rfl
  rw [h3, h4] at h2
  obtain ⟨ha, hb, hc, hd⟩ := hp
  omega

/-- Flipping the board reads each square colour-swapped at the mirrored
position. -/
theorem atPos_flip (b : Board) {p : Position} (hp : p.valid) :
    (b.flip).atPos p = (b.atPos p.flip).flip := by
  have hk := bitIdx_lt hp
  have hk' := bitIdx_lt (Position.valid_flip hp)
  have hkf := bitIdx_flip hp
  rw [atPos_eq, atPos_eq]
  show Square.decode (reverseBits128 b.raw / 2 ^ Board.bitIdx p % 4)
    = (Square.decode (b.raw / 2 ^ Board.bitIdx p.flip % 4)).flip
  apply decode_swap _ (Nat.mod_lt _ (by norm_num)) _ (Nat.mod_lt _ (by norm_num))
  · rw [testBit_div_pow_mod4, testBit_div_pow_mod4, Nat.add_zero,
      testBit_reverseBits128 _ _ (by omega)]
    have : 127 - Board.bitIdx p = Board.bitIdx p.flip + 1 := by omega
    rw [this]
    simp
  · rw [testBit_div_pow_mod4, testBit_div_pow_mod4, Nat.add_zero,
      testBit_reverseBits128 _ _ (by omega)]
    have : 127 - (Board.bitIdx p + 1) = Board.bitIdx p.flip := by omega
    rw [this]
    simp

/-- `Board::flip` is an involution on machine-width boards. -/
theorem Board.flip_involution (b : Board) (hb : b.raw < 2 ^ 128) : b.flip.flip = b := by
  cases b with
  | mk raw pas =>
    simp only [Board.flip, reverseBits128_involutive hb]
    congr 1
    cases pas with
    | none => rfl
    | some p => simp [Position.flip_flip]

/-! ## Collapsing the `MovesIterator` state machine to an ordered list -/

def optList : Option Move → List Move
  | some m => [m]
  | none => []

/-- The six stages in their fixed order: single forward; double forward
(only when the single-forward stage emitted and the pawn stands on rank 2);
diagonal-left; diagonal-right; en-passant left and right (both pre-disabled
when the board has no passant target). -/
def stageList (b : Board) (p : Position) : List Move :=
  optList (stageFwd1 b p)
    ++ ((if (stageFwd1 b p).isSome ∧ p.rank.n = 2 then optList (stageFwd2 b p) else [])
    ++ (optList (stageDiagL b p)
    ++ (optList (stageDiagR b p)
    ++ (if b.passantable_pos.isSome
        then optList (stagePasL b p) ++ optList (stagePasR b p)
        else []))))

theorem collectM_congr (n : Nat) (it it' : MIter) (h : next1 it = next1 it') :
    collectM n it = collectM n it' := by
  cases n with
  | zero => rfl
  | succ n => simp only [collectM, h]

theorem collectM_of_next_some {it : MIter} {m : Move} {it' : MIter} (n : Nat)
    (h : next1 it = (some m, it')) : collectM (n + 1) it = m :: collectM n it' := by
  simp only [collectM, h]

theorem collect_done (n : Nat) (it : MIter) (h1 : it.fwd1 = true)
    (h2 : it.fwd2 = true) (h3 : it.diagL = true) (h4 : it.diagR = true)
    (h5 : it.pasL = true) (h6 : it.pasR = true) : collectM n it = [] := by
  cases n with
  | zero => rfl
  | succ n => simp [collectM, next1, next2, next3, next4, next5, next6, h1, h2, h3, h4, h5, h6]

theorem collect_L6 (n : Nat) (it : MIter) (h1 : it.fwd1 = true)
    (h2 : it.fwd2 = true) (h3 : it.diagL = true) (h4 : it.diagR = true)
    (h5 : it.pasL = true) :
    collectM (n + 2) it
      = if it.pasR then [] else optList (stagePasR it.board it.src) := by
  by_cases h6 : it.pasR = true
  · rw [if_pos h6]
    exact collect_done _ _ h1 h2 h3 h4 h5 h6
  · have h6' : it.pasR = false := by revert h6; cases it.pasR <;> simp
    rw [if_neg h6]
    have hnext : next1 it = (stagePasR it.board it.src, { it with pasR := true }) := by
      simp [next1, next2, next3, next4, next5, next6, h1, h2, h3, h4, h5, h6']
    rcases hs : stagePasR it.board it.src with _ | m
    · rw [hs] at hnext
      simp only [collectM, hnext, optList]
    · rw [hs] at hnext
      rw [collectM_of_next_some (n + 1) hnext,
        collect_done (n + 1) { it with pasR := true } h1 h2 h3 h4 h5 rfl]
      simp [optList]

theorem collect_L5 (n : Nat) (it : MIter) (h1 : it.fwd1 = true)
    (h2 : it.fwd2 = true) (h3 : it.diagL = true) (h4 : it.diagR = true) :
    collectM (n + 3) it
      = (if it.pasL then [] else optList (stagePasL it.board it.src))
        ++ (if it.pasR then [] else optList (stagePasR it.board it.src)) := by
  by_cases h5 : it.pasL = true
  · rw [if_pos h5, List.nil_append]
    exact collect_L6 (n + 1) it h1 h2 h3 h4 h5
  · have h5' : it.pasL = false := by revert h5; cases it.pasL <;> simp
    rw [if_neg h5]
    rcases hs : stagePasL it.board it.src with _ | m
    · have hcg : next1 it = next1 { it with pasL := true } := by
        simp [next1, next2, next3, next4, next5, next6, h1, h2, h3, h4, h5', hs]
      rw [collectM_congr _ _ _ hcg,
        collect_L6 (n + 1) { it with pasL := true } h1 h2 h3 h4 rfl]
      simp [optList]
    · have hnext : next1 it = (some m, { it with pasL := true }) := by
        simp [next1, next2, next3, next4, next5, h1, h2, h3, h4, h5', hs]
      rw [collectM_of_next_some (n + 2) hnext,
        collect_L6 n { it with pasL := true } h1 h2 h3 h4 rfl]
      simp [optList]

theorem collect_L4 (n : Nat) (it : MIter) (h1 : it.fwd1 = true)
    (h2 : it.fwd2 = true) (h3 : it.diagL = true) :
    collectM (n + 4) it
      = (if it.diagR then [] else optList (stageDiagR it.board it.src))
        ++ ((if it.pasL then [] else optList (stagePasL it.board it.src))
        ++ (if it.pasR then [] else optList (stagePasR it.board it.src))) := by
  by_cases h4 : it.diagR = true
  · rw [if_pos h4, List.nil_append]
    exact collect_L5 (n + 1) it h1 h2 h3 h4
  · have h4' : it.diagR = false := by revert h4; cases it.diagR <;> simp
    rw [if_neg h4]
    rcases hs : stageDiagR it.board it.src with _ | m
    · have hcg : next1 it = next1 { it with diagR := true } := by
        simp [next1, next2, next3, next4, next5, next6, h1, h2, h3, h4', hs]
      rw [collectM_congr _ _ _ hcg,
        collect_L5 (n + 1) { it with diagR := true } h1 h2 h3 rfl]
      simp [optList]
    · have hnext : next1 it = (some m, { it with diagR := true }) := by
        simp [next1, next2, next3, next4, h1, h2, h3, h4', hs]
      rw [collectM_of_next_some (n + 3) hnext,
        collect_L5 n { it with diagR := true } h1 h2 h3 rfl]
      simp [optList]

theorem collect_L3 (n : Nat) (it : MIter) (h1 : it.fwd1 = true)
    (h2 : it.fwd2 = true) :
    collectM (n + 5) it
      = (if it.diagL then [] else optList (stageDiagL it.board it.src))
        ++ ((if it.diagR then [] else optList (stageDiagR it.board it.src))
        ++ ((if it.pasL then [] else optList (stagePasL it.board it.src))
        ++ (if it.pasR then [] else optList (stagePasR it.board it.src)))) := by
  by_cases h3 : it.diagL = true
  · rw [if_pos h3, List.nil_append]
    exact collect_L4 (n + 1) it h1 h2 h3
  · have h3' : it.diagL = false := by revert h3; cases it.diagL <;> simp
    rw [if_neg h3]
    rcases hs : stageDiagL it.board it.src with _ | m
    · have hcg : next1 it = next1 { it with diagL := true } := by
        simp [next1, next2, next3, next4, next5, next6, h1, h2, h3', hs]
      rw [collectM_congr _ _ _ hcg,
        collect_L4 (n + 1) { it with diagL := true } h1 h2 rfl]
      simp [optList]
    · have hnext : next1 it = (some m, { it with diagL := true }) := by
        simp [next1, next2, next3, h1, h2, h3', hs]
      rw [collectM_of_next_some (n + 4) hnext,
        collect_L4 n { it with diagL := true } h1 h2 rfl]
      simp [optList]

theorem collect_L2 (n : Nat) (it : MIter) (h1 : it.fwd1 = true) :
    collectM (n + 6) it
      = (if it.fwd2 then [] else optList (stageFwd2 it.board it.src))
        ++ ((if it.diagL then [] else optList (stageDiagL it.board it.src))
        ++ ((if it.diagR then [] else optList (stageDiagR it.board it.src))
        ++ ((if it.pasL then [] else optList (stagePasL it.board it.src))
        ++ (if it.pasR then [] else optList (stagePasR it.board it.src))))) := by
  by_cases h2 : it.fwd2 = true
  · rw [if_pos h2, List.nil_append]
    exact collect_L3 (n + 1) it h1 h2
  · have h2' : it.fwd2 = false := by revert h2; cases it.fwd2 <;> simp
    rw [if_neg h2]
    rcases hs : stageFwd2 it.board it.src with _ | m
    · have hcg : next1 it = next1 { it with fwd2 := true } := by
        simp [next1, next2, next3, next4, next5, next6, h1, h2', hs]
      rw [collectM_congr _ _ _ hcg,
        collect_L3 (n + 1) { it with fwd2 := true } h1 rfl]
      simp [optList]
    · have hnext : next1 it = (some m, { it with fwd2 := true }) := by
        simp [next1, next2, h1, h2', hs]
      rw [collectM_of_next_some (n + 5) hnext,
        collect_L3 n { it with fwd2 := true } h1 rfl]
      simp [optList]

theorem pas_part_eq (b : Board) (p : Position) :
    (if b.passantable_pos.isNone then ([] : List Move) else optList (stagePasL b p))
      ++ (if b.passantable_pos.isNone then [] else optList (stagePasR b p))
      = if b.passantable_pos.isSome
        then optList (stagePasL b p) ++ optList (stagePasR b p)
        else [] := by
  rcases hpas : b.passantable_pos with _ | x <;> simp [hpas]

/-- The collected `MovesIterator` output is exactly the six-stage list. -/
theorem movesOf_eq_stageList (b : Board) (p : Position) :
    movesOf b p = stageList b p := by
  have hmk : mkIter b p
      = ⟨p, b, false, decide (p.rank.n ≠ 2), false, false,
          b.passantable_pos.isNone, b.passantable_pos.isNone⟩ := rfl
  show collectM 7 (mkIter b p) = stageList b p
  rcases hs1 : stageFwd1 b p with _ | m
  · have hnext : next1 (mkIter b p)
        = next1 ⟨p, b, true, true, false, false,
            b.passantable_pos.isNone, b.passantable_pos.isNone⟩ := by
      rw [hmk]
      simp [next1, hs1]
    rw [collectM_congr 7 _ _ hnext,
      collect_L2 1 ⟨p, b, true, true, false, false,
        b.passantable_pos.isNone, b.passantable_pos.isNone⟩ rfl]
    unfold stageList
    rw [hs1]
    dsimp only
    rw [pas_part_eq]
    simp [optList]
  · have hnext : next1 (mkIter b p)
        = (some m, ⟨p, b, true, decide (p.rank.n ≠ 2), false, false,
            b.passantable_pos.isNone, b.passantable_pos.isNone⟩) := by
      rw [hmk]
      simp [next1, hs1]
    rw [collectM_of_next_some 6 hnext,
      collect_L2 0 ⟨p, b, true, decide (p.rank.n ≠ 2), false, false,
        b.passantable_pos.isNone, b.passantable_pos.isNone⟩ rfl]
    unfold stageList
    rw [hs1]
    dsimp only
    rw [pas_part_eq]
    by_cases hr : p.rank.n = 2
    · simp [hr, optList]
    · simp [hr, optList]

/-! ## Piece-scan lemmas -/

theorem piecesAux_eq_filter (b : Board) :
    ∀ n look, piecesAux b n look
      = (scanF n look).filter fun q => (b.atPos q).is_white := by
  intro n
  induction n with
  | zero => intro look; rfl
  | succ n ih =>
    intro look
    simp only [piecesAux, scanF, List.filter_cons]
    by_cases he : look.incr.is_end = true <;>
      by_cases hw : (b.atPos look.incr).is_white = true <;>
        simp [he, hw, ih]

theorem piecesL_eq (b : Board) :
    piecesL b = allPositions.filter fun q => (b.atPos q).is_white :=
  piecesAux_eq_filter b 64 startLook

theorem allPositions_nodup : allPositions.Nodup := by decide

theorem allPositions_valid : ∀ q ∈ allPositions, q.valid := by decide

theorem mem_allPositions_of_valid {q : Position} (hq : q.valid) :
    q ∈ allPositions := by
  obtain ⟨⟨f⟩, ⟨r⟩⟩ := q
  obtain ⟨h1, h2, h3, h4⟩ := hq
  simp only at h1 h2 h3 h4
  interval_cases f <;> interval_cases r <;> decide

theorem flatMap_eq_single {α β : Type} {l : List α} {g : α → List β} {a : α}
    {ms : List β} (hnd : l.Nodup) (hmem : a ∈ l) (ha : g a = ms)
    (hother : ∀ x ∈ l, x ≠ a → g x = []) : l.flatMap g = ms := by
  induction l with
  | nil => cases hmem
  | cons x xs ih =>
    rw [List.flatMap_cons]
    have hx_not_mem : x ∉ xs := (List.nodup_cons.mp hnd).1
    rcases List.mem_cons.mp hmem with rfl | hmem'
    · have hxs : xs.flatMap g = [] := by
        apply List.flatMap_eq_nil_iff.mpr
        intro y hy
        exact hother y (List.mem_cons_of_mem _ hy)
          (fun heq => hx_not_mem (heq ▸ hy))
      rw [ha, hxs, List.append_nil]
    · have hxa : x ≠ a := fun heq => hx_not_mem (heq ▸ hmem')
      rw [hother x (List.mem_cons_self x xs) hxa, List.nil_append]
      exact ih (List.nodup_cons.mp hnd).2 hmem'
        (fun y hy hya => hother y (List.mem_cons_of_mem _ hy) hya)

/-! ## Coordinate arithmetic on in-range values -/

theorem File.incr_val (f : File) (h0 : 0 ≤ f.val) (h6 : f.val ≤ 6) :
    f.incr = ⟨f.val + 1⟩ := by
  show File.mk ((f.val + 1 + 1 - 1).tmod 8) = _
  have h : f.val + 1 + 1 - 1 = f.val + 1 := by ring
  rw [h, Int.tmod_eq_of_lt (by omega) (by omega)]

theorem File.decr_val (f : File) (h0 : 1 ≤ f.val) (h7 : f.val ≤ 8) :
    f.decr = ⟨f.val - 1⟩ := by
  show File.mk ((f.val + 1 - 1 - 1).tmod 8) = _
  have h : f.val + 1 - 1 - 1 = f.val - 1 := by ring
  rw [h, Int.tmod_eq_of_lt (by omega) (by omega)]

theorem Rank.incr_eval (r : Rank) (h0 : 0 ≤ r.val) (h6 : r.val ≤ 6) :
    r.incr = ⟨r.val + 1⟩ := by
  show Rank.mk ((r.val + 1 + 1 - 1).tmod 8) = _
  have h : r.val + 1 + 1 - 1 = r.val + 1 := by ring
  rw [h, Int.tmod_eq_of_lt (by omega) (by omega)]

theorem Position.left_eq {p : Position} (hp : p.valid) (h : p.file.val ≠ 0) :
    p.left = some ⟨⟨p.file.val - 1⟩, p.rank⟩ := by
  obtain ⟨h1, h2, h3, h4⟩ := hp
  unfold Position.left
  rw [if_neg (by simp [File.is_start, h]),
    File.decr_val p.file (by omega) (by omega)]

theorem Position.left_none {p : Position} (h : p.file.val = 0) : p.left = none := by
  unfold Position.left
  rw [if_pos (by simp [File.is_start, h])]

theorem Position.right_eq {p : Position} (hp : p.valid) (h : p.file.val ≠ 7) :
    p.right = some ⟨⟨p.file.val + 1⟩, p.rank⟩ := by
  obtain ⟨h1, h2, h3, h4⟩ := hp
  unfold Position.right
  rw [if_neg (by simp [File.is_end, h]),
    File.incr_val p.file (by omega) (by omega)]

theorem Position.right_none {p : Position} (h : p.file.val = 7) : p.right = none := by
  unfold Position.right
  rw [if_pos (by simp [File.is_end, h])]

theorem Position.front_eq {p : Position} (hp : p.valid) (h : p.rank.val ≠ 7) :
    p.front = some ⟨p.file, ⟨p.rank.val + 1⟩⟩ := by
  obtain ⟨h1, h2, h3, h4⟩ := hp
  unfold Position.front
  rw [if_neg (by simp [Rank.is_end, h]),
    Rank.incr_eval p.rank (by omega) (by omega)]

theorem Position.front_none {p : Position} (h : p.rank.val = 7) : p.front = none := by
  unfold Position.front
  rw [if_pos (by simp [Rank.is_end, h])]

/-! ## Stage output shapes -/

theorem stageFwd1_shape {b : Board} {p : Position} {m : Move}
    (h : stageFwd1 b p = some m) :
    m.passant = false ∧ m.src = p ∧ m.board = b := by
  unfold stageFwd1 at h
  split at h
  · split at h
    · cases h; exact ⟨rfl, rfl, rfl⟩
    · cases h
  · cases h

theorem stageFwd2_shape {b : Board} {p : Position} {m : Move}
    (h : stageFwd2 b p = some m) :
    m.passant = false ∧ m.src = p ∧ m.board = b := by
  unfold stageFwd2 at h
  split at h
  · split at h
    · cases h; exact ⟨rfl, rfl, rfl⟩
    · cases h
  · cases h

theorem stageDiagL_shape {b : Board} {p : Position} {m : Move}
    (h : stageDiagL b p = some m) :
    m.passant = false ∧ m.src = p ∧ m.board = b ∧ p.diag_l = some m.dst := by
  unfold stageDiagL at h
  split at h
  · split at h
    · cases h; exact ⟨rfl, rfl, rfl, by assumption⟩
    · cases h
  · cases h

theorem stageDiagR_shape {b : Board} {p : Position} {m : Move}
    (h : stageDiagR b p = some m) :
    m.passant = false ∧ m.src = p ∧ m.board = b ∧ p.diag_r = some m.dst := by
  unfold stageDiagR at h
  split at h
  · split at h
    · cases h; exact ⟨rfl, rfl, rfl, by assumption⟩
    · cases h
  · cases h

theorem stagePasL_shape {b : Board} {p : Position} {m : Move}
    (h : stagePasL b p = some m) :
    m.passant = true ∧ m.src = p ∧ m.board = b ∧ p.diag_l = some m.dst
      ∧ p.left = b.passantable_pos := by
  unfold stagePasL at h
  split at h
  · split at h
    · split at h
      · cases h; exact ⟨rfl, rfl, rfl, by assumption, by assumption⟩
      · cases h
    · cases h
  · cases h

theorem stagePasR_shape {b : Board} {p : Position} {m : Move}
    (h : stagePasR b p = some m) :
    m.passant = true ∧ m.src = p ∧ m.board = b ∧ p.diag_r = some m.dst
      ∧ p.right = b.passantable_pos := by
  unfold stagePasR at h
  split at h
  · split at h
    · split at h
      · cases h; exact ⟨rfl, rfl, rfl, by assumption, by assumption⟩
      · cases h
    · cases h
  · cases h

theorem filter_optList_of_false {o : Option Move}
    (h : ∀ m, o = some m → m.passant = false) :
    (optList o).filter (fun m => m.passant) = [] := by
  rcases ho : o with _ | m
  · simp [optList]
  · simp [optList, h m ho]

theorem filter_optList_of_true {o : Option Move}
    (h : ∀ m, o = some m → m.passant = true) :
    (optList o).filter (fun m => m.passant) = optList o := by
  rcases ho : o with _ | m
  · simp [optList]
  · simp [optList, h m ho]

/-- Only the two passant stages survive filtering moves by the passant flag. -/
theorem filter_passant_movesOf (b : Board) (q : Position) :
    (movesOf b q).filter (fun m => m.passant)
      = if b.passantable_pos.isSome
        then optList (stagePasL b q) ++ optList (stagePasR b q)
        else [] := by
  rw [movesOf_eq_stageList]
  unfold stageList
  rw [List.filter_append, List.filter_append, List.filter_append, List.filter_append,
    filter_optList_of_false (fun m hm => (stageFwd1_shape hm).1),
    filter_optList_of_false (fun m hm => (stageDiagL_shape hm).1),
    filter_optList_of_false (fun m hm => (stageDiagR_shape hm).1)]
  have hgate : (if (stageFwd1 b q).isSome ∧ q.rank.n = 2
      then optList (stageFwd2 b q) else []).filter (fun m => m.passant) = [] := by
    by_cases hc : (stageFwd1 b q).isSome ∧ q.rank.n = 2
    · rw [if_pos hc, filter_optList_of_false (fun m hm => (stageFwd2_shape hm).1)]
    · rw [if_neg hc]; rfl
  rw [hgate]
  by_cases hps : b.passantable_pos.isSome = true
  · rw [if_pos hps, List.filter_append,
      filter_optList_of_true (fun m hm => (stagePasL_shape hm).1),
      filter_optList_of_true (fun m hm => (stagePasR_shape hm).1)]
    simp
  · rw [if_neg hps]
    simp

/-- Every generated move records the generating board; a passant-flagged move
is emitted only when the board's passant target is present. -/
theorem mem_stageList_props {b : Board} {p : Position} {m : Move}
    (hm : m ∈ stageList b p) :
    m.board = b ∧ m.src = p
      ∧ (m.passant = true → b.passantable_pos.isSome = true) := by
  unfold stageList at hm
  rcases List.mem_append.mp hm with h1 | hrest
  · rcases ho : stageFwd1 b p with _ | mv
    · rw [ho] at h1; cases h1
    · rw [ho] at h1
      rcases List.mem_singleton.mp h1 with rfl
      obtain ⟨ha, hb, hc⟩ := stageFwd1_shape ho
      exact ⟨hc, hb, fun hp => absurd (hp ▸ ha) (by simp)⟩
  rcases List.mem_append.mp hrest with h2 | hrest
  · by_cases hc : (stageFwd1 b p).isSome ∧ p.rank.n = 2
    · rw [if_pos hc] at h2
      rcases ho : stageFwd2 b p with _ | mv
      · rw [ho] at h2; cases h2
      · rw [ho] at h2
        rcases List.mem_singleton.mp h2 with rfl
        obtain ⟨ha, hb, hcc⟩ := stageFwd2_shape ho
        exact ⟨hcc, hb, fun hp => absurd (hp ▸ ha) (by simp)⟩
    · rw [if_neg hc] at h2; cases h2
  rcases List.mem_append.mp hrest with h3 | hrest
  · rcases ho : stageDiagL b p with _ | mv
    · rw [ho] at h3; cases h3
    · rw [ho] at h3
      rcases List.mem_singleton.mp h3 with rfl
      obtain ⟨ha, hb, hcc, _⟩ := stageDiagL_shape ho
      exact ⟨hcc, hb, fun hp => absurd (hp ▸ ha) (by simp)⟩
  rcases List.mem_append.mp hrest with h4 | h56
  · rcases ho : stageDiagR b p with _ | mv
    · rw [ho] at h4; cases h4
    · rw [ho] at h4
      rcases List.mem_singleton.mp h4 with rfl
      obtain ⟨ha, hb, hcc, _⟩ := stageDiagR_shape ho
      exact ⟨hcc, hb, fun hp => absurd (hp ▸ ha) (by simp)⟩
  · by_cases hps : b.passantable_pos.isSome = true
    · rw [if_pos hps] at h56
      rcases List.mem_append.mp h56 with h5 | h6
      · rcases ho : stagePasL b p with _ | mv
        · rw [ho] at h5; cases h5
        · rw [ho] at h5
          rcases List.mem_singleton.mp h5 with rfl
          obtain ⟨_, hb, hcc, _, _⟩ := stagePasL_shape ho
          exact ⟨hcc, hb, fun _ => hps⟩
      · rcases ho : stagePasR b p with _ | mv
        · rw [ho] at h6; cases h6
        · rw [ho] at h6
          rcases List.mem_singleton.mp h6 with rfl
          obtain ⟨_, hb, hcc, _, _⟩ := stagePasR_shape ho
          exact ⟨hcc, hb, fun _ => hps⟩
    · rw [if_neg hps] at h56; cases h56

/-! ## Claim theorems -/

/-- C2 (code bug in `File::new`/`Rank::new`): the spec requires out-of-[1,8]
construction to be rejected with `InvalidCoordinate`; the code instead wraps
with `wrapping_rem(8)`, returning a bounded-but-unintended coordinate for
inputs above 8 and even a negative internal index for inputs below 1. -/
theorem C2_construction_wraps_eval :
    File.new 9 = ⟨0⟩ ∧ Rank.new 9 = ⟨0⟩ ∧ File.new 0 = ⟨-1⟩ ∧ Rank.new 0 = ⟨-1⟩ := by
  refine ⟨?_, ?_, ?_, ?_⟩ <;> decide

/-- C3 counterexample: `Position::from((0, 1))` yields file index `-1`, so the
computed bit offset is `-2`, outside `[0, 126]` — positions produced by
`From<(i32, i32)>` with arbitrary integers are not always in range. -/
theorem C3_offset_out_of_range_cex :
    Board.bits_at (Position.ofInts 0 1) = -2
      ∧ ¬(0 ≤ Board.bits_at (Position.ofInts 0 1)
          ∧ Board.bits_at (Position.ofInts 0 1) ≤ 126) := by
  refine ⟨?_, ?_⟩ <;> decide

/-- C3 amended: for coordinates at least 1 (in particular the in-range
coordinates `[1, 8]`), the constructed position is in range and its bit
offset lies in `[0, 126]`. -/
theorem C3_offset_in_range (x y : Int) (h1 : 1 ≤ x) (h2 : 1 ≤ y) :
    (Position.ofInts x y).valid
      ∧ 0 ≤ Board.bits_at (Position.ofInts x y)
      ∧ Board.bits_at (Position.ofInts x y) ≤ 126 := by
  have hx0 : 0 ≤ (x - 1).tmod 8 := Int.tmod_nonneg 8 (by omega)
  have hx8 : (x - 1).tmod 8 < 8 := Int.tmod_lt_of_pos (x - 1) (by norm_num)
  have hy0 : 0 ≤ (y - 1).tmod 8 := Int.tmod_nonneg 8 (by omega)
  have hy8 : (y - 1).tmod 8 < 8 := Int.tmod_lt_of_pos (y - 1) (by norm_num)
  unfold Position.ofInts File.new Rank.new Position.valid Board.bits_at
  simp only
  omega

theorem C3_offset_in_range_witness :
    (Position.ofInts 3 4).valid
      ∧ 0 ≤ Board.bits_at (Position.ofInts 3 4)
      ∧ Board.bits_at (Position.ofInts 3 4) ≤ 126 :=
  C3_offset_in_range 3 4 (by norm_num) (by norm_num)

/-- C5: flip is an involution — same packed squares, same passant target. -/
theorem C5_flip_involution (b : Board) (hb : b.raw < 2 ^ 128) :
    b.flip.flip = b :=
  Board.flip_involution b hb

theorem C5_flip_involution_witness : Board.new.flip.flip = Board.new :=
  C5_flip_involution Board.new (by decide)

/-- C6: flipping reads each square colour-swapped at the mirrored position,
and the passant target is reflected across both axes (`none` maps to
`none`). -/
theorem C6_flip_swaps_perspective (b : Board) (p : Position) (hp : p.valid) :
    b.flip.atPos p = (b.atPos p.flip).flip
      ∧ b.flip.passantable_pos = b.passantable_pos.map Position.flip :=
  ⟨atPos_flip b hp, rfl⟩

theorem C6_flip_swaps_perspective_witness :
    Board.new.flip.atPos ⟨⟨0⟩, ⟨0⟩⟩
        = (Board.new.atPos (Position.flip ⟨⟨0⟩, ⟨0⟩⟩)).flip
      ∧ Board.new.flip.passantable_pos
        = Board.new.passantable_pos.map Position.flip :=
  C6_flip_swaps_perspective Board.new ⟨⟨0⟩, ⟨0⟩⟩ (by decide)

/-- C7 counterexample: `File::incr` at file H does not fail — it returns a
`File`, and that file is A: the step wraps to the opposite edge instead of
returning no value (`Rank::incr` likewise; `decr` at the start edge returns
the out-of-range index `-1`). -/
theorem C7_incr_wraps_cex :
    (File.mk 7).incr = File.mk 0 ∧ (Rank.mk 7).incr = Rank.mk 0
      ∧ (File.mk 0).decr = File.mk (-1) ∧ (Rank.mk 0).decr = Rank.mk (-1) := by
  refine ⟨?_, ?_, ?_, ?_⟩ <;> decide

/-- C7 amended: boundedness holds at the `Position` level — `left`, `right`
and `front` return no position at their respective edges — while the raw
`File`/`Rank` `incr`/`decr` are total and wrap (`incr` to the opposite edge,
`decr` to index `-1`). -/
theorem C7_bounded_stepping (p : Position) :
    (p.file.is_start = true → p.left = none)
      ∧ (p.file.is_end = true → p.right = none)
      ∧ (p.rank.is_end = true → p.front = none)
      ∧ (File.mk 7).incr = File.mk 0 ∧ (File.mk 0).decr = File.mk (-1)
      ∧ (Rank.mk 7).incr = Rank.mk 0 ∧ (Rank.mk 0).decr = Rank.mk (-1) := by
  refine ⟨?_, ?_, ?_, by decide, by decide, by decide, by decide⟩
  · intro h
    exact Position.left_none (by simpa [File.is_start] using h)
  · intro h
    exact Position.right_none (by simpa [File.is_end] using h)
  · intro h
    exact Position.front_none (by simpa [Rank.is_end] using h)

theorem C7_bounded_stepping_witness :
    (Position.mk ⟨0⟩ ⟨3⟩).left = none
      ∧ (Position.mk ⟨7⟩ ⟨3⟩).right = none
      ∧ (Position.mk ⟨3⟩ ⟨7⟩).front = none :=
  ⟨(C7_bounded_stepping ⟨⟨0⟩, ⟨3⟩⟩).1 rfl,
    (C7_bounded_stepping ⟨⟨7⟩, ⟨3⟩⟩).2.1 rfl,
    (C7_bounded_stepping ⟨⟨3⟩, ⟨7⟩⟩).2.2.1 rfl⟩

/-- C10: every generated move can be applied to its generating board without
reaching the `unwrap` failure inside the en-passant branch of
`Board::after`: a passant-flagged move is only generated when the board's
passant target is `Some`. -/
theorem C10_passant_unwrap_safe (b : Board) (m : Move) (hm : m ∈ movesL b) :
    (b.after m).isSome = true
      ∧ (m.passant = true → b.passantable_pos.isSome = true) := by
  obtain ⟨p, _, hmf⟩ := List.mem_flatMap.mp hm
  rw [movesOf_eq_stageList] at hmf
  obtain ⟨hboard, _, hpas⟩ := mem_stageList_props hmf
  refine ⟨?_, hpas⟩
  unfold Board.after
  by_cases hp : m.passant = true
  · rcases hx : m.board.passantable_pos with _ | x
    · have hbn : b.passantable_pos = none := by rw [← hboard]; exact hx
      have hps := hpas hp
      rw [hbn] at hps
      simp at hps
    · simp [hp, hx]
  · have hp' : m.passant = false := by revert hp; cases m.passant <;> simp
    simp [hp']

theorem C10_passant_unwrap_safe_witness :
    (Board.new.after ⟨⟨⟨0⟩, ⟨2⟩⟩, false, ⟨⟨0⟩, ⟨1⟩⟩, Board.new⟩).isSome = true
      ∧ ((⟨⟨⟨0⟩, ⟨2⟩⟩, false, ⟨⟨0⟩, ⟨1⟩⟩, Board.new⟩ : Move).passant = true
          → Board.new.passantable_pos.isSome = true) :=
  C10_passant_unwrap_safe Board.new ⟨⟨⟨0⟩, ⟨2⟩⟩, false, ⟨⟨0⟩, ⟨1⟩⟩, Board.new⟩
    (by decide)

/-- C8: from the initial board every one of the 8 pawns has exactly its
single- and double-forward moves (same file, destination one or two ranks
ahead, no passant flag), 16 moves in total. -/
theorem C8_initial_moves :
    (movesL Board.new).length = 16
      ∧ (piecesL Board.new).length = 8
      ∧ (∀ m ∈ movesL Board.new,
          m.passant = false
            ∧ m.dst.file = m.src.file
            ∧ (m.src.front = some m.dst
                ∨ m.src.front.bind Position.front = some m.dst))
      ∧ (∀ p ∈ piecesL Board.new,
          (movesL Board.new).countP (fun m => m.src == p) = 2) := by
  decide

theorem File.decr_ne (f : File) : f.decr ≠ f := by
  intro h
  have hv := congrArg File.val h
  show False
  simp only [File.decr, File.new, File.n] at hv
  have he : f.val + 1 - 1 - 1 = f.val - 1 := by ring
  rw [he, Int.tmod_def] at hv
  omega

theorem File.incr_ne (f : File) : f.incr ≠ f := by
  intro h
  have hv := congrArg File.val h
  show False
  simp only [File.incr, File.new, File.n] at hv
  have he : f.val + 1 + 1 - 1 = f.val + 1 := by ring
  rw [he, Int.tmod_def] at hv
  omega

/-- A square reached sideways from `q` is never the square in front of `q`. -/
theorem some_ne_front_of_side {q d : Position}
    (h : q.left = some d ∨ q.right = some d) : some d ≠ q.front := by
  have hfile : d.file = q.file.decr ∨ d.file = q.file.incr := by
    rcases h with h | h
    · unfold Position.left at h
      split at h
      · cases h
      · cases h; exact Or.inl rfl
    · unfold Position.right at h
      split at h
      · cases h
      · cases h; exact Or.inr rfl
  rcases hf : q.front with _ | x
  · simp
  · have hx : x.file = q.file := by
      unfold Position.front at hf
      split at hf
      · cases hf
      · cases hf; rfl
    intro hsome
    have hdx : d = x := by injection hsome
    rcases hfile with hh | hh
    · exact File.decr_ne q.file (by rw [← hh, hdx, hx])
    · exact File.incr_ne q.file (by rw [← hh, hdx, hx])

/-- C4: the per-piece enumeration is exactly the six-stage ordered list (each
stage once, at most one move each, double-forward gated on rank 2 and a
non-blocked front square); moreover, when the square directly ahead is
occupied, no emitted move reaches the square two ahead. -/
theorem C4_move_order (b : Board) (p : Position) :
    movesOf b p = stageList b p
      ∧ (∀ q, p.front = some q → (b.atPos q).is_empty = false →
          ∀ m ∈ movesOf b p, some m.dst ≠ p.front.bind Position.front) := by
  refine ⟨movesOf_eq_stageList b p, ?_⟩
  intro q hfront hocc m hm
  have hs1 : stageFwd1 b p = none := by
    unfold stageFwd1
    rw [hfront]
    simp [hocc]
  rw [movesOf_eq_stageList] at hm
  unfold stageList at hm
  rw [hs1] at hm
  simp only [Option.isSome_none, Bool.false_eq_true, false_and, if_false] at hm
  have hdst : p.diag_l = some m.dst ∨ p.diag_r = some m.dst := by
    rcases List.mem_append.mp hm with h1 | hrest
    · cases h1
    rcases List.mem_append.mp hrest with h2 | hrest
    · cases h2
    rcases List.mem_append.mp hrest with h3 | hrest
    · rcases ho : stageDiagL b p with _ | mv
      · rw [ho] at h3; cases h3
      · rw [ho] at h3
        rcases List.mem_singleton.mp h3 with rfl
        exact Or.inl (stageDiagL_shape ho).2.2.2
    rcases List.mem_append.mp hrest with h4 | h56
    · rcases ho : stageDiagR b p with _ | mv
      · rw [ho] at h4; cases h4
      · rw [ho] at h4
        rcases List.mem_singleton.mp h4 with rfl
        exact Or.inr (stageDiagR_shape ho).2.2.2
    · by_cases hps : b.passantable_pos.isSome = true
      · rw [if_pos hps] at h56
        rcases List.mem_append.mp h56 with h5 | h6
        · rcases ho : stagePasL b p with _ | mv
          · rw [ho] at h5; cases h5
          · rw [ho] at h5
            rcases List.mem_singleton.mp h5 with rfl
            exact Or.inl (stagePasL_shape ho).2.2.2.1
        · rcases ho : stagePasR b p with _ | mv
          · rw [ho] at h6; cases h6
          · rw [ho] at h6
            rcases List.mem_singleton.mp h6 with rfl
            exact Or.inr (stagePasR_shape ho).2.2.2.1
      · rw [if_neg hps] at h56; cases h56
  rw [hfront]
  show some m.dst ≠ q.front
  have hside : q.left = some m.dst ∨ q.right = some m.dst := by
    rcases hdst with h | h
    · unfold Position.diag_l at h
      rw [hfront] at h
      exact Or.inl h
    · unfold Position.diag_r at h
      rw [hfront] at h
      exact Or.inr h
  exact some_ne_front_of_side hside

theorem C4_move_order_witness :
    some (Move.mk ⟨⟨1⟩, ⟨2⟩⟩ false ⟨⟨0⟩, ⟨1⟩⟩ ⟨0xA00010000, none⟩).dst
      ≠ (Position.mk ⟨0⟩ ⟨1⟩).front.bind Position.front :=
  (C4_move_order ⟨0xA00010000, none⟩ ⟨⟨0⟩, ⟨1⟩⟩).2 ⟨⟨0⟩, ⟨2⟩⟩ (by decide) (by decide)
    (Move.mk ⟨⟨1⟩, ⟨2⟩⟩ false ⟨⟨0⟩, ⟨1⟩⟩ ⟨0xA00010000, none⟩) (by decide)

/-- Board reached from the initial board by the double step A2-A4 (the
passant target A4 is registered). -/
def c1Board2 : Board :=
  ⟨0x0000AAAA000000000001000055540000, some ⟨⟨0⟩, ⟨3⟩⟩⟩

def c1MoveDouble : Move := ⟨⟨⟨0⟩, ⟨3⟩⟩, false, ⟨⟨0⟩, ⟨1⟩⟩, Board.new⟩

def c1MoveSingle : Move := ⟨⟨⟨1⟩, ⟨2⟩⟩, false, ⟨⟨1⟩, ⟨1⟩⟩, c1Board2⟩

/-- Board after additionally playing the single step B2-B3. -/
def c1Board3 : Board :=
  ⟨0x0000AAAA000000000001000455500000, some ⟨⟨0⟩, ⟨3⟩⟩⟩

/-- C1 (code bug in `Board::after`): applying a generator-produced move with
rank delta 1 to a board whose passant target is `Some A4` leaves the stale
target `Some A4` in the new board — `Board::after` has no branch clearing
`passantable_pos` when the delta is not 2, while the spec requires the
target to be cleared.  Source/destination updates themselves behave as
specified. -/
theorem C1_after_keeps_stale_passant_eval :
    c1MoveDouble ∈ movesL Board.new
      ∧ Board.new.after c1MoveDouble = some c1Board2
      ∧ c1Board2.passantable_pos = some ⟨⟨0⟩, ⟨3⟩⟩
      ∧ c1MoveSingle ∈ movesL c1Board2
      ∧ c1MoveSingle.dst.rank.n - c1MoveSingle.src.rank.n ≠ 2
      ∧ c1Board2.after c1MoveSingle = some c1Board3
      ∧ c1Board3.atPos ⟨⟨1⟩, ⟨1⟩⟩ = Square.empty
      ∧ c1Board3.atPos ⟨⟨1⟩, ⟨2⟩⟩ = Square.piece Colour.White
      ∧ c1Board3.passantable_pos = some ⟨⟨0⟩, ⟨3⟩⟩ := by
  refine ⟨by decide, by decide, by decide, by decide, by decide, by decide,
    by decide, by decide, by decide⟩

/-- Assembly step for the en-passant round trip: given that piece `p0` is the
unique source of passant moves and its two passant stages produce exactly the
move to `d`, the board-wide filtered move list is that single move and
applying it clears `X` and `p0` and puts the mover's pawn on `d`. -/
theorem C9_assemble (b : Board) (p0 d X : Position)
    (hX : b.passantable_pos = some X)
    (hp0v : p0.valid) (hXv : X.valid) (hdv : d.valid)
    (hwhite : (b.atPos p0).is_white = true)
    (hpasboth : optList (stagePasL b p0) ++ optList (stagePasR b p0)
      = [⟨d, true, p0, b⟩])
    (hother : ∀ q ∈ piecesL b, q ≠ p0 →
      (movesOf b q).filter (fun m => m.passant) = [])
    (hdelta : d.rank.n - p0.rank.n ≠ 2)
    (hne_dp : d ≠ p0) (hne_Xp : X ≠ p0) (hne_Xd : X ≠ d) :
    (movesL b).filter (fun m => m.passant) = [⟨d, true, p0, b⟩]
      ∧ ∃ b2, b.after ⟨d, true, p0, b⟩ = some b2
          ∧ b2.atPos X = Square.empty
          ∧ b2.atPos p0 = Square.empty
          ∧ b2.atPos d = Square.piece Colour.White := by
  have hps : b.passantable_pos.isSome = true := by rw [hX]; rfl
  constructor
  · unfold movesL
    rw [List.filter_flatMap]
    refine flatMap_eq_single ?_ ?_ ?_ hother
    · rw [piecesL_eq]
      exact allPositions_nodup.filter _
    · rw [piecesL_eq]
      exact List.mem_filter.mpr ⟨mem_allPositions_of_valid hp0v, hwhite⟩
    · rw [filter_passant_movesOf, if_pos hps, hpasboth]
  · refine ⟨((b.set p0 Square.empty).set d (Square.piece Colour.White)).set X
      Square.empty, ?_, ?_, ?_, ?_⟩
    · unfold Board.after
      dsimp only
      rw [hX]
      simp [hdelta]
    · exact atPos_set_self _ Square.empty hXv
    · rw [atPos_set_other _ _ hXv hp0v hne_Xp,
        atPos_set_other _ _ hdv hp0v hne_dp]
      exact atPos_set_self _ Square.empty hp0v
    · rw [atPos_set_other _ _ hXv hdv hne_Xd]
      exact atPos_set_self _ (Square.piece Colour.White) hdv

/-- C9: en-passant round trip. If the board's passant target `X` holds an
opponent pawn, the diagonal square `d` in front of `X` is empty, and exactly
one mover pawn `p0` is adjacent to `X` on the same rank, then the generated
moves contain exactly one passant-flagged move — destination `d` — and
applying it empties both `X` and `p0` and puts the mover's pawn on `d`. -/
theorem C9_en_passant_round_trip (b : Board) (X p0 d : Position)
    (hX : b.passantable_pos = some X)
    (hXv : X.valid) (hp0v : p0.valid)
    (hXblack : (b.atPos X).is_black = true)
    (hfront : X.front = some d)
    (hdempty : (b.atPos d).is_empty = true)
    (hadj : p0.left = some X ∨ p0.right = some X)
    (hwhite : (b.atPos p0).is_white = true)
    (huniq : ∀ q, q.valid → (q.left = some X ∨ q.right = some X) →
        (b.atPos q).is_white = true → q = p0) :
    (movesL b).filter (fun m => m.passant) = [⟨d, true, p0, b⟩]
      ∧ ∃ b2, b.after ⟨d, true, p0, b⟩ = some b2
          ∧ b2.atPos X = Square.empty
          ∧ b2.atPos p0 = Square.empty
          ∧ b2.atPos d = Square.piece Colour.White := by
  have hps : b.passantable_pos.isSome = true := by rw [hX]; rfl
  have hother : ∀ q ∈ piecesL b, q ≠ p0 →
      (movesOf b q).filter (fun m => m.passant) = [] := by
    intro q hqmem hqne
    rw [piecesL_eq] at hqmem
    have hqv : q.valid := allPositions_valid q (List.mem_filter.mp hqmem).1
    have hqw : (b.atPos q).is_white = true := (List.mem_filter.mp hqmem).2
    have hqL : stagePasL b q = none := by
      unfold stagePasL
      rw [if_neg]
      intro hcon
      rw [hX] at hcon
      exact hqne (huniq q hqv (Or.inl hcon) hqw)
    have hqR : stagePasR b q = none := by
      unfold stagePasR
      rw [if_neg]
      intro hcon
      rw [hX] at hcon
      exact hqne (huniq q hqv (Or.inr hcon) hqw)
    rw [filter_passant_movesOf, if_pos hps, hqL, hqR]
    rfl
  have hv := hp0v
  obtain ⟨hpf0, hpf7, hpr0, hpr7⟩ := hv
  rcases hadj with hL | hR
  · -- the capturing pawn stands to the right of X
    have hf0 : p0.file.val ≠ 0 := by
      intro h
      rw [Position.left_none h] at hL
      exact Option.noConfusion hL
    rw [Position.left_eq hp0v hf0] at hL
    have hXeq : X = ⟨⟨p0.file.val - 1⟩, p0.rank⟩ := (Option.some_injective _ hL).symm
    subst hXeq
    have hr7 : p0.rank.val ≠ 7 := by
      intro h
      rw [Position.front_none (p := ⟨⟨p0.file.val - 1⟩, p0.rank⟩) h] at hfront
      exact Option.noConfusion hfront
    rw [Position.front_eq hXv hr7] at hfront
    have hdeq : d = ⟨⟨p0.file.val - 1⟩, ⟨p0.rank.val + 1⟩⟩ :=
      (Option.some_injective _ hfront).symm
    subst hdeq
    have hdv : (⟨⟨p0.file.val - 1⟩, ⟨p0.rank.val + 1⟩⟩ : Position).valid := by
      unfold Position.valid
      dsimp only
      omega
    have hpasL : stagePasL b p0
        = some ⟨⟨⟨p0.file.val - 1⟩, ⟨p0.rank.val + 1⟩⟩, true, p0, b⟩ := by
      unfold stagePasL
      have hgate : p0.left = b.passantable_pos := by
        rw [hX, Position.left_eq hp0v hf0]
      rw [if_pos hgate]
      have hdiag : p0.diag_l = some ⟨⟨p0.file.val - 1⟩, ⟨p0.rank.val + 1⟩⟩ := by
        unfold Position.diag_l
        rw [Position.front_eq hp0v hr7]
        show Position.left ⟨p0.file, ⟨p0.rank.val + 1⟩⟩ = _
        rw [Position.left_eq (p := ⟨p0.file, ⟨p0.rank.val + 1⟩⟩)
          (by unfold Position.valid; dsimp only; omega) hf0]
      rw [hdiag]
      simp [hdempty]
    have hpasR : stagePasR b p0 = none := by
      unfold stagePasR
      rw [if_neg]
      intro hcon
      rw [hX] at hcon
      by_cases h7 : p0.file.val = 7
      · rw [Position.right_none h7] at hcon
        exact Option.noConfusion hcon
      · rw [Position.right_eq hp0v h7] at hcon
        have hvv := (Position.eq_iff_vals _ _).mp (Option.some_injective _ hcon)
        dsimp at hvv
        omega
    refine C9_assemble b p0 _ _ hX hp0v hXv hdv hwhite ?_ hother ?_ ?_ ?_ ?_
    · rw [hpasL, hpasR]
      rfl
    · dsimp [Rank.n]
      omega
    · intro h
      have hvv := (Position.eq_iff_vals _ _).mp h
      dsimp at hvv
      omega
    · intro h
      have hvv := (Position.eq_iff_vals _ _).mp h
      dsimp at hvv
      omega
    · intro h
      have hvv := (Position.eq_iff_vals _ _).mp h
      dsimp at hvv
      omega
  · -- the capturing pawn stands to the left of X
    have hf7 : p0.file.val ≠ 7 := by
      intro h
      rw [Position.right_none h] at hR
      exact Option.noConfusion hR
    rw [Position.right_eq hp0v hf7] at hR
    have hXeq : X = ⟨⟨p0.file.val + 1⟩, p0.rank⟩ := (Option.some_injective _ hR).symm
    subst hXeq
    have hr7 : p0.rank.val ≠ 7 := by
      intro h
      rw [Position.front_none (p := ⟨⟨p0.file.val + 1⟩, p0.rank⟩) h] at hfront
      exact Option.noConfusion hfront
    rw [Position.front_eq hXv hr7] at hfront
    have hdeq : d = ⟨⟨p0.file.val + 1⟩, ⟨p0.rank.val + 1⟩⟩ :=
      (Option.some_injective _ hfront).symm
    subst hdeq
    have hdv : (⟨⟨p0.file.val + 1⟩, ⟨p0.rank.val + 1⟩⟩ : Position).valid := by
      unfold Position.valid
      dsimp only
      omega
    have hpasL : stagePasL b p0 = none := by
      unfold stagePasL
      rw [if_neg]
      intro hcon
      rw [hX] at hcon
      by_cases h0 : p0.file.val = 0
      · rw [Position.left_none h0] at hcon
        exact Option.noConfusion hcon
      · rw [Position.left_eq hp0v h0] at hcon
        have hvv := (Position.eq_iff_vals _ _).mp (Option.some_injective _ hcon)
        dsimp at hvv
        omega
    have hpasR : stagePasR b p0
        = some ⟨⟨⟨p0.file.val + 1⟩, ⟨p0.rank.val + 1⟩⟩, true, p0, b⟩ := by
      unfold stagePasR
      have hgate : p0.right = b.passantable_pos := by
        rw [hX, Position.right_eq hp0v hf7]
      rw [if_pos hgate]
      have hdiag : p0.diag_r = some ⟨⟨p0.file.val + 1⟩, ⟨p0.rank.val + 1⟩⟩ := by
        unfold Position.diag_r
        rw [Position.front_eq hp0v hr7]
        show Position.right ⟨p0.file, ⟨p0.rank.val + 1⟩⟩ = _
        rw [Position.right_eq (p := ⟨p0.file, ⟨p0.rank.val + 1⟩⟩)
          (by unfold Position.valid; dsimp only; omega) hf7]
      rw [hdiag]
      simp [hdempty]
    refine C9_assemble b p0 _ _ hX hp0v hXv hdv hwhite ?_ hother ?_ ?_ ?_ ?_
    · rw [hpasL, hpasR]
      rfl
    · dsimp [Rank.n]
      omega
    · intro h
      have hvv := (Position.eq_iff_vals _ _).mp h
      dsimp at hvv
      omega
    · intro h
      have hvv := (Position.eq_iff_vals _ _).mp h
      dsimp at hvv
      omega
    · intro h
      have hvv := (Position.eq_iff_vals _ _).mp h
      dsimp at hvv
      omega

/-- Board with a black pawn on A5 (the registered passant target, having just
double-stepped) and a white pawn on B5. -/
def c9Board : Board := ⟨0x60000000000000000, some ⟨⟨0⟩, ⟨4⟩⟩⟩

theorem C9_en_passant_round_trip_witness :
    (movesL c9Board).filter (fun m => m.passant)
        = [⟨⟨⟨0⟩, ⟨5⟩⟩, true, ⟨⟨1⟩, ⟨4⟩⟩, c9Board⟩]
      ∧ ∃ b2, c9Board.after ⟨⟨⟨0⟩, ⟨5⟩⟩, true, ⟨⟨1⟩, ⟨4⟩⟩, c9Board⟩ = some b2
          ∧ b2.atPos ⟨⟨0⟩, ⟨4⟩⟩ = Square.empty
          ∧ b2.atPos ⟨⟨1⟩, ⟨4⟩⟩ = Square.empty
          ∧ b2.atPos ⟨⟨0⟩, ⟨5⟩⟩ = Square.piece Colour.White :=
  C9_en_passant_round_trip c9Board ⟨⟨0⟩, ⟨4⟩⟩ ⟨⟨1⟩, ⟨4⟩⟩ ⟨⟨0⟩, ⟨5⟩⟩ rfl
    (by decide) (by decide) (by decide) (by decide) (by decide)
    (Or.inl (by decide)) (by decide)
    (fun q hqv hadj hw => by
      have hmem := mem_allPositions_of_valid hqv
      have hall : ∀ r ∈ allPositions,
          (r.left = some ⟨⟨0⟩, ⟨4⟩⟩ ∨ r.right = some ⟨⟨0⟩, ⟨4⟩⟩) →
          ((c9Board.atPos r).is_white = true) → r = ⟨⟨1⟩, ⟨4⟩⟩ := by decide
      exact hall q hmem hadj hw)
